import Mathlib

/-!
Verification of `audio_utils/include/audio_utils/Statistics.h` (android_system_media).

Shallow embedding conventions:

* The arithmetic fields of the online `Statistics` engine (alpha, weight,
  weight2, mean, m2) and of `ReferenceStatistics` are modelled over `ℚ`
  (exact arithmetic, as the claims under consideration stipulate).  In exact
  arithmetic the Kahan compensated accumulator used for the mean is the plain
  sum: the correction term `(t - mSum) - y` is identically zero, so `mMean += x`
  is embedded as rational addition.  `ℚ` division is Lean's total division
  with `q / 0 = 0`; every statement that depends on a division records the
  positivity of its divisor where relevant.
* The sample type `T = double` is modelled, where IEEE special values matter
  (min/max tracking, the checked square root), by the type `Fl` below: a NaN,
  two infinities, and finite rationals, with the C++ `<`, `>` comparisons
  (any comparison involving NaN is false).
* The Babylonian square root iterates over binary64-rounded values; finite
  values there are modelled as rationals rounded to a 53-bit significand by
  round-to-nearest, ties-to-even (`roundQ`), with unbounded exponent (the
  concrete computations stated stay far from binary64 overflow/underflow, where
  this model agrees with binary64).  The C++ recursion
  `audio_utils_sqrt_unchecked` has no structural termination measure, so it is
  embedded with an explicit fuel parameter; reaching the stopping condition
  `next == prev` makes the result independent of any remaining fuel.
-/

namespace AudioUtils

/-- Model of a C++ `double` where IEEE special values matter: NaN, the two
infinities, and finite values (as exact rationals). Signed zero is not
distinguished (no statement here depends on it). -/
inductive Fl where
  | nan : Fl
  | ninf : Fl
  | pinf : Fl
  | fin : ℚ → Fl
  deriving DecidableEq, Repr

namespace Fl

/-- C++ `a < b` on doubles: false whenever either side is NaN. -/
def lt : Fl → Fl → Bool
  | nan, _ => false
  | _, nan => false
  | ninf, ninf => false
  | ninf, _ => true
  | _, ninf => false
  | pinf, _ => false
  | fin _, pinf => true
  | fin p, fin q => decide (p < q)

/-- `std::max(a, b)` is `a < b ? b : a` (comp is `operator<`). -/
def cppMax (a b : Fl) : Fl := if lt a b then b else a

/-- `std::min(a, b)` is `b < a ? b : a` (comp is `operator<`). -/
def cppMin (a b : Fl) : Fl := if lt b a then b else a

end Fl

/-- Exact-arithmetic state of the online engine `android::Statistics<T, D, S>`
with `T = D = double` modelled as `ℚ` for the arithmetic fields and `Fl` for
the min/max trackers (the only fields where IEEE special values are relevant
to the claims). Field names follow the source (`mAlpha`, `mMin`, `mMax`,
`mN`, `mWeight`, `mWeight2`, `mMean`, `mM2`). -/
structure Statistics where
  mAlpha : ℚ
  mMin : Fl
  mMax : Fl
  mN : ℕ
  mWeight : ℚ
  mWeight2 : ℚ
  mMean : ℚ
  mM2 : ℚ
  deriving DecidableEq, Repr

namespace Statistics

/-- `Statistics(D alpha = D(1.))`: default member initializers give
`mMin = +infinity` sentinel, `mMax = -infinity` sentinel, all accumulators 0. -/
def init (alpha : ℚ) : Statistics :=
  { mAlpha := alpha
    mMin := Fl.pinf
    mMax := Fl.ninf
    mN := 0
    mWeight := 0
    mWeight2 := 0
    mMean := 0
    mM2 := 0 }

/-- `setAlpha(D alpha)`. -/
def setAlpha (s : Statistics) (alpha : ℚ) : Statistics :=
  { s with mAlpha := alpha }

/-- `add(const T& value)`, exactly in source order: min/max update, `++mN`,
`delta = value - mMean`, `mWeight = 1 + mAlpha * mWeight`,
`mWeight2 = 1 + mAlpha * mAlpha * mWeight2`, `mMean += delta / mWeight` (the
*new* weight), `mM2 = mAlpha * mM2 + delta * (value - mMean)` (the *new*,
post-update mean). The sample is a finite rational (exact arithmetic). -/
def add (s : Statistics) (value : ℚ) : Statistics :=
  let newMax := Fl.cppMax s.mMax (Fl.fin value)
  let newMin := Fl.cppMin s.mMin (Fl.fin value)
  let newN := s.mN + 1
  let delta := value - s.mMean
  let newWeight := 1 + s.mAlpha * s.mWeight
  let newWeight2 := 1 + s.mAlpha * s.mAlpha * s.mWeight2
  let newMean := s.mMean + delta / newWeight
  let newM2 := s.mAlpha * s.mM2 + delta * (value - newMean)
  { s with
      mMax := newMax
      mMin := newMin
      mN := newN
      mWeight := newWeight
      mWeight2 := newWeight2
      mMean := newMean
      mM2 := newM2 }

/-- `getN()`. -/
def getN (s : Statistics) : ℕ := s.mN

/-- `reset()`: min/max back to the sentinels, count/weights/mean/m2 zeroed;
`mAlpha` is not touched. -/
def reset (s : Statistics) : Statistics :=
  { s with
      mMin := Fl.pinf
      mMax := Fl.ninf
      mN := 0
      mWeight := 0
      mWeight2 := 0
      mMean := 0
      mM2 := 0 }

/-- `getWeight()`. -/
def getWeight (s : Statistics) : ℚ := s.mWeight

/-- `getMean()`. -/
def getMean (s : Statistics) : ℚ := s.mMean

/-- `getSampleWeight()`: `mWeight - mWeight2 / mWeight`. -/
def getSampleWeight (s : Statistics) : ℚ := s.mWeight - s.mWeight2 / s.mWeight

/-- `getVariance()`: zero sentinel (`D{}`) for fewer than 2 samples, else
`mM2 / getSampleWeight()`. -/
def getVariance (s : Statistics) : ℚ :=
  if s.mN < 2 then 0 else s.mM2 / s.getSampleWeight

/-- `getPopVariance()`: zero sentinel for fewer than 1 sample, else
`mM2 / mWeight`. -/
def getPopVariance (s : Statistics) : ℚ :=
  if s.mN < 1 then 0 else s.mM2 / s.mWeight

/-- `getMin()`. -/
def getMin (s : Statistics) : Fl := s.mMin

/-- `getMax()`. -/
def getMax (s : Statistics) : Fl := s.mMax

/-- One mutating call on the engine: `add(v)` or `setAlpha(a)`. -/
inductive Op where
  | addOp : ℚ → Op
  | alphaOp : ℚ → Op
  deriving DecidableEq, Repr

/-- Run a sequence of mutating calls, in order. -/
def run (s : Statistics) : List Op → Statistics
  | [] => s
  | Op.addOp v :: ops => run (s.add v) ops
  | Op.alphaOp a :: ops => run (s.setAlpha a) ops

/-- `setAlpha(a); add(v)`: one sample added with `a` the alpha in effect. -/
def addWith (s : Statistics) (p : ℚ × ℚ) : Statistics :=
  (s.setAlpha p.1).add p.2

/-- Run a list of `(alpha, value)` pairs, each an `add` with that alpha in
effect; this is the generic trace shape for claims that constrain the alpha
used at every `add`. -/
def runPairs (s : Statistics) (l : List (ℚ × ℚ)) : Statistics :=
  l.foldl addWith s

end Statistics

/-- Exact-arithmetic state of `android::ReferenceStatistics<T, D>` with
`T = D = double` modelled as `ℚ`: the current alpha, and the history as a list
of `(value, alpha at the time of the add)` pairs, most recent first (the
source keeps `mData` and `mAlphaList` as parallel deques pushed at the
front). Min/max tracking, whose behavior differs and involves NaN, is
modelled separately by `RefMinMax` below. -/
structure ReferenceStatistics where
  mAlpha : ℚ
  hist : List (ℚ × ℚ)
  deriving DecidableEq, Repr

namespace ReferenceStatistics

/-- `ReferenceStatistics(D alpha = D(1.))`. -/
def init (alpha : ℚ) : ReferenceStatistics :=
  { mAlpha := alpha, hist := [] }

/-- `setAlpha(D alpha)`. -/
def setAlpha (s : ReferenceStatistics) (alpha : ℚ) : ReferenceStatistics :=
  { s with mAlpha := alpha }

/-- `add(const T& value)` (history part): `mData.push_front(value);
mAlphaList.push_front(mAlpha)`. -/
def add (s : ReferenceStatistics) (value : ℚ) : ReferenceStatistics :=
  { s with hist := (value, s.mAlpha) :: s.hist }

/-- `getN()`: `mData.size()`. -/
def getN (s : ReferenceStatistics) : ℕ := s.hist.length

/-- The `getWeight()` loop: `weight += alpha_i; alpha_i *= mAlphaList[i]`,
walking most-recent-first with `alpha_i` the running product accumulator. -/
def weightAux : ℚ → List (ℚ × ℚ) → ℚ
  | _, [] => 0
  | ai, p :: rest => ai + weightAux (ai * p.2) rest

/-- `getWeight()`. -/
def getWeight (s : ReferenceStatistics) : ℚ := weightAux 1 s.hist

/-- The `getWeight2()` loop: `weight2 += alpha2_i;
alpha2_i *= mAlphaList[i] * mAlphaList[i]`. -/
def weight2Aux : ℚ → List (ℚ × ℚ) → ℚ
  | _, [] => 0
  | a2i, p :: rest => a2i + weight2Aux (a2i * (p.2 * p.2)) rest

/-- `getWeight2()`. -/
def getWeight2 (s : ReferenceStatistics) : ℚ := weight2Aux 1 s.hist

/-- The weighted-sum loop of `getMean()`: `wsum += alpha_i * mData[i];
alpha_i *= mAlphaList[i]`. -/
def wsumAux : ℚ → List (ℚ × ℚ) → ℚ
  | _, [] => 0
  | ai, p :: rest => ai * p.1 + wsumAux (ai * p.2) rest

/-- `getMean()`: weighted sum of the data divided by `getWeight()`. -/
def getMean (s : ReferenceStatistics) : ℚ := wsumAux 1 s.hist / s.getWeight

/-- The loop of `getUnweightedVariance()`: `diff = mData[i] - mean;
wsum += alpha_i * diff * diff; alpha_i *= mAlphaList[i]`, with `mean`
computed once up front. -/
def sqDiffAux : ℚ → ℚ → List (ℚ × ℚ) → ℚ
  | _, _, [] => 0
  | mean, ai, p :: rest => ai * ((p.1 - mean) * (p.1 - mean)) + sqDiffAux mean (ai * p.2) rest

/-- `getUnweightedVariance()`. -/
def getUnweightedVariance (s : ReferenceStatistics) : ℚ :=
  sqDiffAux s.getMean 1 s.hist

/-- `getVariance()`: `getUnweightedVariance() / (getWeight() - getWeight2() / getWeight())`. -/
def getVariance (s : ReferenceStatistics) : ℚ :=
  s.getUnweightedVariance / (s.getWeight - s.getWeight2 / s.getWeight)

/-- `getPopVariance()`: `getUnweightedVariance() / getWeight()`. -/
def getPopVariance (s : ReferenceStatistics) : ℚ :=
  s.getUnweightedVariance / s.getWeight

end ReferenceStatistics

/-- The min/max-tracking component of `Statistics::add` (the first three
lines: `mMax = std::max(mMax, value); mMin = std::min(mMin, value); ++mN;`)
for samples that may be NaN or infinite. The arithmetic fields of
`Statistics` never feed back into min/max tracking, so this component is
modelled on its own over `Fl`; construction and `reset()` seed
`mMin = +infinity`, `mMax = -infinity`. -/
structure MinMaxTracker where
  mN : ℕ
  mMin : Fl
  mMax : Fl
  deriving DecidableEq, Repr

namespace MinMaxTracker

/-- The freshly constructed (or just-reset) tracker state of `Statistics`. -/
def init : MinMaxTracker :=
  { mN := 0, mMin := Fl.pinf, mMax := Fl.ninf }

/-- Lines 182-184 of `Statistics::add`. -/
def add (s : MinMaxTracker) (v : Fl) : MinMaxTracker :=
  { mMax := Fl.cppMax s.mMax v
    mMin := Fl.cppMin s.mMin v
    mN := s.mN + 1 }

/-- Feed a sample sequence in order. -/
def run (s : MinMaxTracker) (l : List Fl) : MinMaxTracker :=
  l.foldl add s

end MinMaxTracker

/-- The min/max-tracking component of `ReferenceStatistics::add` over `Fl`
(the count stands in for `getN()`, i.e. the history length): the first sample
is assigned to both `mMax` and `mMin` unconditionally; afterwards
`else if (value > mMax) mMax = value; else if (value < mMin) mMin = value;`.
Default-constructed `mMin{}`/`mMax{}` value-initialize to `0.0`. -/
structure RefMinMax where
  mN : ℕ
  mMin : Fl
  mMax : Fl
  deriving DecidableEq, Repr

namespace RefMinMax

/-- Freshly constructed reference engine: empty history, zero min/max. -/
def init : RefMinMax :=
  { mN := 0, mMin := Fl.fin 0, mMax := Fl.fin 0 }

/-- The min/max branch structure of `ReferenceStatistics::add`; `value > mMax`
is the IEEE comparison `Fl.lt mMax value` and `value < mMin` is
`Fl.lt value mMin` (both false when either operand is NaN). -/
def add (s : RefMinMax) (v : Fl) : RefMinMax :=
  if s.mN = 0 then
    { mN := 1, mMin := v, mMax := v }
  else if Fl.lt s.mMax v then
    { s with mMax := v, mN := s.mN + 1 }
  else if Fl.lt v s.mMin then
    { s with mMin := v, mN := s.mN + 1 }
  else
    { s with mN := s.mN + 1 }

/-- Feed a sample sequence in order. -/
def run (s : RefMinMax) (l : List Fl) : RefMinMax :=
  l.foldl add s

end RefMinMax

/-- Rational addition computed directly on numerators and denominators via
`mkRat`; equal to `ℚ` addition (`qAdd_eq`) but evaluable by kernel reduction. -/
def qAdd (p q : ℚ) : ℚ := mkRat (p.num * q.den + q.num * p.den) (p.den * q.den)

/-- Rational subtraction via `mkRat`; equal to `ℚ` subtraction (`qSub_eq`). -/
def qSub (p q : ℚ) : ℚ := mkRat (p.num * q.den - q.num * p.den) (p.den * q.den)

/-- Rational multiplication via `mkRat`; equal to `ℚ` multiplication (`qMul_eq`). -/
def qMul (p q : ℚ) : ℚ := mkRat (p.num * q.num) (p.den * q.den)

/-- Rational division via `Rat.divInt`; equal to `ℚ` division (`qDiv_eq`),
including the `p / 0 = 0` convention. -/
def qDiv (p q : ℚ) : ℚ := Rat.divInt (p.num * q.den) (p.den * q.num)

/-- `2 ^ e` as a rational, for `e : ℤ`, built with `mkRat` so that it
evaluates by kernel reduction. -/
def pow2 (e : ℤ) : ℚ :=
  if 0 ≤ e then mkRat (2 ^ e.toNat) 1 else mkRat 1 (2 ^ (-e).toNat)

/-- `Nat.log2` with explicit structural fuel (the kernel does not reduce the
well-founded recursion of `Nat.log2` itself); `fuel = n` always suffices
since `Nat.log2 n < n` for `n ≥ 1`. -/
def log2Fuel : ℕ → ℕ → ℕ
  | 0, _ => 0
  | f + 1, n => if 2 ≤ n then log2Fuel f (n / 2) + 1 else 0

/-- Floor of the base-2 logarithm of a natural number (0 for 0), kernel-reducible. -/
def nlog2 (n : ℕ) : ℕ := log2Fuel n n

/-- Floor of the base-2 logarithm of a positive rational, computed from the
bit lengths of numerator and denominator and corrected by direct comparison. -/
def ilog2 (m : ℚ) : ℤ :=
  let a := m.num.toNat
  let b := m.den
  let e0 : ℤ := (nlog2 a : ℤ) - (nlog2 b : ℤ)
  if pow2 e0 ≤ m then (if pow2 (e0 + 1) ≤ m then e0 + 1 else e0) else e0 - 1

/-- Round a rational to a 53-bit significand, round-to-nearest, ties-to-even:
the binary64 rounding of a real result, with unbounded exponent (no
overflow/underflow; the computations stated here stay well inside the normal
binary64 range, where this agrees with binary64). -/
def roundQ (q : ℚ) : ℚ :=
  if q = 0 then 0
  else
    let m := if q < 0 then -q else q
    let e := ilog2 m
    let scaled := qMul m (pow2 (52 - e))
    let n0 : ℤ := scaled.num / (scaled.den : ℤ)
    let r := qSub scaled (mkRat n0 1)
    let n : ℤ :=
      if mkRat 1 2 < r then n0 + 1
      else if r < mkRat 1 2 then n0
      else if n0 % 2 = 0 then n0 else n0 + 1
    qMul (mkRat (if q < 0 then -n else n) 1) (pow2 (e - 52))

namespace Fl

/-- IEEE `+` on the `Fl` model, finite results rounded by `roundQ`. -/
def add : Fl → Fl → Fl
  | nan, _ => nan
  | _, nan => nan
  | pinf, ninf => nan
  | ninf, pinf => nan
  | pinf, _ => pinf
  | _, pinf => pinf
  | ninf, _ => ninf
  | _, ninf => ninf
  | fin p, fin q => fin (roundQ (qAdd p q))

/-- IEEE `*` on the `Fl` model, finite results rounded by `roundQ`. -/
def mul : Fl → Fl → Fl
  | nan, _ => nan
  | _, nan => nan
  | pinf, pinf => pinf
  | pinf, ninf => ninf
  | ninf, pinf => ninf
  | ninf, ninf => pinf
  | pinf, fin q => if q = 0 then nan else if 0 < q then pinf else ninf
  | fin q, pinf => if q = 0 then nan else if 0 < q then pinf else ninf
  | ninf, fin q => if q = 0 then nan else if 0 < q then ninf else pinf
  | fin q, ninf => if q = 0 then nan else if 0 < q then ninf else pinf
  | fin p, fin q => fin (roundQ (qMul p q))

/-- IEEE `/` on the `Fl` model (signed zero not distinguished: a finite value
divided by zero follows the numerator's sign, `0/0` is NaN), finite results
rounded by `roundQ`. -/
def div : Fl → Fl → Fl
  | nan, _ => nan
  | _, nan => nan
  | pinf, pinf => nan
  | pinf, ninf => nan
  | ninf, pinf => nan
  | ninf, ninf => nan
  | pinf, fin q => if 0 ≤ q then pinf else ninf
  | ninf, fin q => if 0 ≤ q then ninf else pinf
  | fin _, pinf => fin 0
  | fin _, ninf => fin 0
  | fin p, fin q =>
      if q = 0 then (if p = 0 then nan else if 0 < p then pinf else ninf)
      else fin (roundQ (qDiv p q))

end Fl

/-- One step of the Babylonian iteration of `audio_utils_sqrt_unchecked`:
`next = T(0.5) * (prev + x / prev)`, in the rounded `Fl` arithmetic. -/
def babStep (x prev : Fl) : Fl :=
  Fl.mul (Fl.fin (mkRat 1 2)) (Fl.add prev (Fl.div x prev))

/-- `audio_utils_sqrt_unchecked(x, prev)`: recurse with `next` until
`next == prev`. The C++ recursion carries no structural measure, so it is
embedded with an explicit fuel bound (returning `prev` on exhaustion); once
the stopping condition `next == prev` holds the result no longer depends on
the remaining fuel (`sqrtUnchecked_fixed` below). -/
def sqrtUnchecked : ℕ → Fl → Fl → Fl
  | 0, _, prev => prev
  | fuel + 1, x, prev =>
      let next := babStep x prev
      if next = prev then next else sqrtUnchecked fuel x next

/-- Recursion-depth bound used to embed the checked square root; ample for
the concrete inputs evaluated here. -/
def sqrtFuel : ℕ := 100

/-- `audio_utils_isnan(x)` (`__builtin_isnan`). -/
def audio_utils_isnan (x : Fl) : Bool := x = Fl.nan

/-- `audio_utils_sqrt(x)`, the checked square root, with the source's branch
order: `x < T{}` returns quiet NaN; then NaN, `+infinity`, or zero input is
returned unchanged; otherwise the Babylonian iteration runs from `prev = 1`. -/
def audio_utils_sqrt (x : Fl) : Fl :=
  if Fl.lt x (Fl.fin 0) then Fl.nan
  else if audio_utils_isnan x || x = Fl.pinf || x = Fl.fin 0 then x
  else sqrtUnchecked sqrtFuel x (Fl.fin 1)

/-- Feed a list of samples to the online engine in order, with the current
alpha left unchanged throughout. -/
def Statistics.addAll (s : Statistics) (vs : List ℚ) : Statistics :=
  vs.foldl Statistics.add s

/-- Feed a list of samples to the reference engine in order, with the current
alpha left unchanged throughout. -/
def ReferenceStatistics.addAll (s : ReferenceStatistics) (vs : List ℚ) :
    ReferenceStatistics :=
  vs.foldl ReferenceStatistics.add s

/-- Sum of the elements of a list of rationals. -/
def sumList (l : List ℚ) : ℚ := l.sum

/-- Sum of the squares of the elements of a list of rationals. -/
def sumSq (l : List ℚ) : ℚ := (l.map fun x => x * x).sum

/-- The finite sample values of a mixed sample list, in order. -/
def finVals (l : List Fl) : List ℚ :=
  l.filterMap fun x => match x with | Fl.fin q => some q | _ => none

/-- A sample that is not an infinity (finite or NaN). -/
def notInf (x : Fl) : Bool :=
  match x with
  | Fl.ninf => false
  | Fl.pinf => false
  | _ => true

/-- Every sample is either NaN or finite (no infinities). -/
def finOrNan (l : List Fl) : Prop :=
  ∀ x ∈ l, notInf x = true

instance finOrNan.dec (l : List Fl) : Decidable (finOrNan l) :=
  List.decidableBAll (fun x => notInf x = true) l


/-!  ## Theorems  -/

theorem num_eq_mul_den (p : ℚ) : (p.num : ℚ) = p * p.den :=
  (div_eq_iff (Nat.cast_ne_zero.mpr p.den_nz)).mp (Rat.num_div_den p)

theorem qAdd_eq (p q : ℚ) : qAdd p q = p + q := by
  have hp : (p.den : ℚ) ≠ 0 := Nat.cast_ne_zero.mpr p.den_nz
  have hq : (q.den : ℚ) ≠ 0 := Nat.cast_ne_zero.mpr q.den_nz
  rw [qAdd, Rat.mkRat_eq_div]
  push_cast
  field_simp
  rw [num_eq_mul_den p, num_eq_mul_den q]
  ring

theorem qSub_eq (p q : ℚ) : qSub p q = p - q := by
  have hp : (p.den : ℚ) ≠ 0 := Nat.cast_ne_zero.mpr p.den_nz
  have hq : (q.den : ℚ) ≠ 0 := Nat.cast_ne_zero.mpr q.den_nz
  rw [qSub, Rat.mkRat_eq_div]
  push_cast
  field_simp
  rw [num_eq_mul_den p, num_eq_mul_den q]
  ring

theorem qMul_eq (p q : ℚ) : qMul p q = p * q := by
  have hp : (p.den : ℚ) ≠ 0 := Nat.cast_ne_zero.mpr p.den_nz
  have hq : (q.den : ℚ) ≠ 0 := Nat.cast_ne_zero.mpr q.den_nz
  rw [qMul, Rat.mkRat_eq_div]
  push_cast
  field_simp
  rw [num_eq_mul_den p, num_eq_mul_den q]
  ring

theorem qDiv_eq (p q : ℚ) : qDiv p q = p / q := by
  have hp : (p.den : ℚ) ≠ 0 := Nat.cast_ne_zero.mpr p.den_nz
  have hq : (q.den : ℚ) ≠ 0 := Nat.cast_ne_zero.mpr q.den_nz
  rcases eq_or_ne q 0 with rfl | hq0
  · simp [qDiv]
  · rw [qDiv, Rat.divInt_eq_div]
    push_cast
    rw [num_eq_mul_den p, num_eq_mul_den q]
    rw [div_eq_div_iff (by exact mul_ne_zero hp (mul_ne_zero hq0 hq)) hq0]
    ring

theorem sqrtUnchecked_fixed (x p : Fl) (h : babStep x p = p) :
    ∀ n, sqrtUnchecked n x p = p := by
  intro n
  cases n with
  | zero => rfl
  | succ m => simp [sqrtUnchecked, h]

theorem reset_eq_init (s : Statistics) : s.reset = Statistics.init s.mAlpha := by
  cases s
  rfl

/-- C5: after any number of `add` and `setAlpha` calls, `reset()` yields a
state equal to a freshly constructed engine with the same current alpha:
`getN() == 0`, `getWeight() == 0`, `getMean() == 0`, `getMin()` at the
positive-infinity sentinel, `getMax()` at the negative-infinity sentinel,
alpha unchanged, and any subsequent call sequence behaves exactly as on the
fresh engine. -/
theorem reset_fresh_roundtrip (a0 : ℚ) (ops : List Statistics.Op) :
    (Statistics.run (Statistics.init a0) ops).reset
        = Statistics.init (Statistics.run (Statistics.init a0) ops).mAlpha ∧
    ((Statistics.run (Statistics.init a0) ops).reset).getN = 0 ∧
    ((Statistics.run (Statistics.init a0) ops).reset).getWeight = 0 ∧
    ((Statistics.run (Statistics.init a0) ops).reset).getMean = 0 ∧
    ((Statistics.run (Statistics.init a0) ops).reset).getMin = Fl.pinf ∧
    ((Statistics.run (Statistics.init a0) ops).reset).getMax = Fl.ninf ∧
    ((Statistics.run (Statistics.init a0) ops).reset).mAlpha
        = (Statistics.run (Statistics.init a0) ops).mAlpha ∧
    ∀ more : List Statistics.Op,
      Statistics.run ((Statistics.run (Statistics.init a0) ops).reset) more
        = Statistics.run
            (Statistics.init (Statistics.run (Statistics.init a0) ops).mAlpha) more := by
  refine ⟨reset_eq_init _, rfl, rfl, rfl, ?_, ?_, rfl, ?_⟩
  · rw [reset_eq_init]
    rfl
  · rw [reset_eq_init]
    rfl
  · intro more
    rw [reset_eq_init]

/-- C6: `getVariance()` returns the zero sentinel whenever `count < 2` and
`getPopVariance()` returns the zero sentinel whenever `count < 1`; after one
sample `v` on a fresh engine, `getN() == 1`, `getMean() == v`,
`getVariance()` is the zero sentinel and `getPopVariance() == 0`. -/
theorem variance_count_sentinels (s : Statistics) (a v : ℚ) :
    (s.mN < 2 → s.getVariance = 0) ∧
    (s.mN < 1 → s.getPopVariance = 0) ∧
    ((Statistics.init a).add v).getN = 1 ∧
    ((Statistics.init a).add v).getMean = v ∧
    ((Statistics.init a).add v).getVariance = 0 ∧
    ((Statistics.init a).add v).getPopVariance = 0 := by
  refine ⟨fun h => by simp [Statistics.getVariance, h],
          fun h => by simp [Statistics.getPopVariance, h], rfl, ?_, ?_, ?_⟩
  · simp [Statistics.add, Statistics.init, Statistics.getMean]
  · simp [Statistics.getVariance, Statistics.add, Statistics.init]
  · simp [Statistics.getPopVariance, Statistics.add, Statistics.init]

/-- Closed witness for `variance_count_sentinels`: instantiated at the fresh
engine with alpha 1 and the sample 5, with both count hypotheses discharged. -/
theorem variance_count_sentinels_witness :
    (Statistics.init 1).getVariance = 0 ∧
    (Statistics.init 1).getPopVariance = 0 ∧
    ((Statistics.init 1).add 5).getMean = 5 :=
  ⟨(variance_count_sentinels (Statistics.init 1) 1 5).1 (by decide),
   (variance_count_sentinels (Statistics.init 1) 1 5).2.1 (by decide),
   (variance_count_sentinels (Statistics.init 1) 1 5).2.2.2.1⟩

/-- C8: the checked compile-time square root satisfies
`audio_utils_sqrt(4.0) == 2.0` (the Babylonian iteration reaches the exact
fixed point 2 under binary64 rounding), `audio_utils_sqrt(0.0) == 0.0`,
`audio_utils_sqrt(-1.0)` is NaN, `audio_utils_sqrt(inf) == inf`; NaN is
returned unchanged, `-inf` (a negative input) yields NaN, and every negative
finite input yields NaN. -/
theorem audio_utils_sqrt_spec :
    audio_utils_sqrt (Fl.fin 4) = Fl.fin 2 ∧
    babStep (Fl.fin 4) (Fl.fin 2) = Fl.fin 2 ∧
    audio_utils_sqrt (Fl.fin 0) = Fl.fin 0 ∧
    audio_utils_sqrt (Fl.fin (-1)) = Fl.nan ∧
    audio_utils_sqrt Fl.pinf = Fl.pinf ∧
    audio_utils_sqrt Fl.nan = Fl.nan ∧
    audio_utils_sqrt Fl.ninf = Fl.nan ∧
    ∀ q : ℚ, q < 0 → audio_utils_sqrt (Fl.fin q) = Fl.nan := by
  set_option maxRecDepth 40000 in
  refine ⟨by decide, by decide, by decide, by decide, by decide, by decide, by decide, ?_⟩
  intro q hq
  have hlt : Fl.lt (Fl.fin q) (Fl.fin 0) = true := by simp [Fl.lt, hq]
  simp [audio_utils_sqrt, hlt]

/-- Closed witness for `audio_utils_sqrt_spec`: the negative-input clause
instantiated at `-9`. -/
theorem audio_utils_sqrt_spec_witness : audio_utils_sqrt (Fl.fin (-9)) = Fl.nan :=
  audio_utils_sqrt_spec.2.2.2.2.2.2.2 (-9) (by decide)

theorem lt_nan (x : Fl) : Fl.lt x Fl.nan = false := by
  cases x <;> rfl

theorem nan_lt (x : Fl) : Fl.lt Fl.nan x = false := by
  cases x <;> rfl

theorem cppMax_fin_fin (m q : ℚ) : Fl.cppMax (Fl.fin m) (Fl.fin q) = Fl.fin (max m q) := by
  by_cases h : m < q
  · simp [Fl.cppMax, Fl.lt, h, max_eq_right (le_of_lt h)]
  · simp [Fl.cppMax, Fl.lt, h, max_eq_left (le_of_not_lt h)]

theorem cppMin_fin_fin (m q : ℚ) : Fl.cppMin (Fl.fin m) (Fl.fin q) = Fl.fin (min m q) := by
  by_cases h : q < m
  · simp [Fl.cppMin, Fl.lt, h, min_eq_right (le_of_lt h)]
  · simp [Fl.cppMin, Fl.lt, h, min_eq_left (le_of_not_lt h)]

theorem finVals_cons_nan (t : List Fl) : finVals (Fl.nan :: t) = finVals t := rfl

theorem finVals_cons_fin (q : ℚ) (t : List Fl) :
    finVals (Fl.fin q :: t) = q :: finVals t := rfl

theorem foldl_cppMax_fin : ∀ (l : List Fl), finOrNan l → ∀ (m : ℚ),
    List.foldl Fl.cppMax (Fl.fin m) l = Fl.fin (List.foldl max m (finVals l)) := by
  intro l
  induction l with
  | nil => intro _ m; rfl
  | cons x t ih =>
    intro h m
    have ht : finOrNan t := fun y hy => h y (List.mem_cons_of_mem x hy)
    cases x with
    | nan =>
      rw [List.foldl_cons, finVals_cons_nan]
      have : Fl.cppMax (Fl.fin m) Fl.nan = Fl.fin m := by simp [Fl.cppMax, lt_nan]
      rw [this, ih ht m]
    | ninf => exact absurd (h Fl.ninf (List.mem_cons_self _ _)) (by simp [notInf])
    | pinf => exact absurd (h Fl.pinf (List.mem_cons_self _ _)) (by simp [notInf])
    | fin q =>
      rw [List.foldl_cons, finVals_cons_fin, cppMax_fin_fin, List.foldl_cons, ih ht (max m q)]

theorem foldl_cppMin_fin : ∀ (l : List Fl), finOrNan l → ∀ (m : ℚ),
    List.foldl Fl.cppMin (Fl.fin m) l = Fl.fin (List.foldl min m (finVals l)) := by
  intro l
  induction l with
  | nil => intro _ m; rfl
  | cons x t ih =>
    intro h m
    have ht : finOrNan t := fun y hy => h y (List.mem_cons_of_mem x hy)
    cases x with
    | nan =>
      rw [List.foldl_cons, finVals_cons_nan]
      have : Fl.cppMin (Fl.fin m) Fl.nan = Fl.fin m := by simp [Fl.cppMin, nan_lt]
      rw [this, ih ht m]
    | ninf => exact absurd (h Fl.ninf (List.mem_cons_self _ _)) (by simp [notInf])
    | pinf => exact absurd (h Fl.pinf (List.mem_cons_self _ _)) (by simp [notInf])
    | fin q =>
      rw [List.foldl_cons, finVals_cons_fin, cppMin_fin_fin, List.foldl_cons, ih ht (min m q)]

theorem foldl_cppMax_ninf : ∀ (l : List Fl), finOrNan l →
    (finVals l = [] ∧ List.foldl Fl.cppMax Fl.ninf l = Fl.ninf) ∨
    (∃ q rest, finVals l = q :: rest ∧
      List.foldl Fl.cppMax Fl.ninf l = Fl.fin (List.foldl max q rest)) := by
  intro l
  induction l with
  | nil => intro _; exact Or.inl ⟨rfl, rfl⟩
  | cons x t ih =>
    intro h
    have ht : finOrNan t := fun y hy => h y (List.mem_cons_of_mem x hy)
    cases x with
    | nan =>
      rw [List.foldl_cons, finVals_cons_nan]
      have : Fl.cppMax Fl.ninf Fl.nan = Fl.ninf := by simp [Fl.cppMax, lt_nan]
      rw [this]
      exact ih ht
    | ninf => exact absurd (h Fl.ninf (List.mem_cons_self _ _)) (by simp [notInf])
    | pinf => exact absurd (h Fl.pinf (List.mem_cons_self _ _)) (by simp [notInf])
    | fin q =>
      rw [List.foldl_cons, finVals_cons_fin]
      have : Fl.cppMax Fl.ninf (Fl.fin q) = Fl.fin q := by simp [Fl.cppMax, Fl.lt]
      rw [this]
      exact Or.inr ⟨q, finVals t, rfl, foldl_cppMax_fin t ht q⟩

theorem foldl_cppMin_pinf : ∀ (l : List Fl), finOrNan l →
    (finVals l = [] ∧ List.foldl Fl.cppMin Fl.pinf l = Fl.pinf) ∨
    (∃ q rest, finVals l = q :: rest ∧
      List.foldl Fl.cppMin Fl.pinf l = Fl.fin (List.foldl min q rest)) := by
  intro l
  induction l with
  | nil => intro _; exact Or.inl ⟨rfl, rfl⟩
  | cons x t ih =>
    intro h
    have ht : finOrNan t := fun y hy => h y (List.mem_cons_of_mem x hy)
    cases x with
    | nan =>
      rw [List.foldl_cons, finVals_cons_nan]
      have : Fl.cppMin Fl.pinf Fl.nan = Fl.pinf := by simp [Fl.cppMin, nan_lt]
      rw [this]
      exact ih ht
    | ninf => exact absurd (h Fl.ninf (List.mem_cons_self _ _)) (by simp [notInf])
    | pinf => exact absurd (h Fl.pinf (List.mem_cons_self _ _)) (by simp [notInf])
    | fin q =>
      rw [List.foldl_cons, finVals_cons_fin]
      have : Fl.cppMin Fl.pinf (Fl.fin q) = Fl.fin q := by simp [Fl.cppMin, Fl.lt]
      rw [this]
      exact Or.inr ⟨q, finVals t, rfl, foldl_cppMin_fin t ht q⟩

theorem foldl_max_mem : ∀ (l : List ℚ) (q : ℚ), List.foldl max q l ∈ q :: l := by
  intro l
  induction l with
  | nil => intro q; simp
  | cons x t ih =>
    intro q
    rw [List.foldl_cons]
    rcases List.mem_cons.mp (ih (max q x)) with h1 | h1
    · rw [h1]
      rcases max_choice q x with h2 | h2 <;> simp [h2]
    · simp [List.mem_cons_of_mem, h1]

theorem le_foldl_max : ∀ (l : List ℚ) (q : ℚ),
    q ≤ List.foldl max q l ∧ ∀ r ∈ l, r ≤ List.foldl max q l := by
  intro l
  induction l with
  | nil => intro q; exact ⟨le_refl q, by simp⟩
  | cons x t ih =>
    intro q
    rw [List.foldl_cons]
    refine ⟨le_trans (le_max_left q x) (ih (max q x)).1, ?_⟩
    intro r hr
    rcases List.mem_cons.mp hr with rfl | h1
    · exact le_trans (le_max_right q r) (ih (max q r)).1
    · exact (ih (max q x)).2 r h1

theorem foldl_min_mem : ∀ (l : List ℚ) (q : ℚ), List.foldl min q l ∈ q :: l := by
  intro l
  induction l with
  | nil => intro q; simp
  | cons x t ih =>
    intro q
    rw [List.foldl_cons]
    rcases List.mem_cons.mp (ih (min q x)) with h1 | h1
    · rw [h1]
      rcases min_choice q x with h2 | h2 <;> simp [h2]
    · simp [List.mem_cons_of_mem, h1]

theorem foldl_min_le : ∀ (l : List ℚ) (q : ℚ),
    List.foldl min q l ≤ q ∧ ∀ r ∈ l, List.foldl min q l ≤ r := by
  intro l
  induction l with
  | nil => intro q; exact ⟨le_refl q, by simp⟩
  | cons x t ih =>
    intro q
    rw [List.foldl_cons]
    refine ⟨le_trans (ih (min q x)).1 (min_le_left q x), ?_⟩
    intro r hr
    rcases List.mem_cons.mp hr with rfl | h1
    · exact le_trans (ih (min q r)).1 (min_le_right q r)
    · exact (ih (min q x)).2 r h1

theorem minMaxRun_mMax (s : MinMaxTracker) (l : List Fl) :
    (MinMaxTracker.run s l).mMax = List.foldl Fl.cppMax s.mMax l := by
  induction l generalizing s with
  | nil => rfl
  | cons x t ih => exact ih (s.add x)

theorem minMaxRun_mMin (s : MinMaxTracker) (l : List Fl) :
    (MinMaxTracker.run s l).mMin = List.foldl Fl.cppMin s.mMin l := by
  induction l generalizing s with
  | nil => rfl
  | cons x t ih => exact ih (s.add x)

theorem minMaxRun_mN (s : MinMaxTracker) (l : List Fl) :
    (MinMaxTracker.run s l).mN = s.mN + l.length := by
  induction l generalizing s with
  | nil => rfl
  | cons x t ih =>
    rw [MinMaxTracker.run, List.foldl_cons, ← MinMaxTracker.run, ih (s.add x)]
    simp [MinMaxTracker.add]
    omega

/-- C4: over any sample sequence consisting of finite samples and at least
one NaN, the online engine tracks exactly the minimum and maximum of the
finite samples alone (NaN never wins a `std::min`/`std::max` comparison),
while `getN()` still counts every sample including the NaN ones. -/
theorem nan_excluded_from_minmax (l : List Fl) (hfn : finOrNan l)
    (_hnan : Fl.nan ∈ l) (hfin : finVals l ≠ []) :
    (∃ q, (MinMaxTracker.run MinMaxTracker.init l).mMax = Fl.fin q ∧
      q ∈ finVals l ∧ ∀ r ∈ finVals l, r ≤ q) ∧
    (∃ q, (MinMaxTracker.run MinMaxTracker.init l).mMin = Fl.fin q ∧
      q ∈ finVals l ∧ ∀ r ∈ finVals l, q ≤ r) ∧
    (MinMaxTracker.run MinMaxTracker.init l).mN = l.length := by
  refine ⟨?_, ?_, by rw [minMaxRun_mN]; simp [MinMaxTracker.init]⟩
  · rw [minMaxRun_mMax]
    rcases foldl_cppMax_ninf l hfn with ⟨h1, _⟩ | ⟨q, rest, hv, hmax⟩
    · exact absurd h1 hfin
    · refine ⟨List.foldl max q rest, hmax, ?_, ?_⟩
      · rw [hv]
        exact foldl_max_mem rest q
      · intro r hr
        rw [hv] at hr
        rcases List.mem_cons.mp hr with h1 | h1
        · exact h1 ▸ (le_foldl_max rest q).1
        · exact (le_foldl_max rest q).2 r h1
  · rw [minMaxRun_mMin]
    rcases foldl_cppMin_pinf l hfn with ⟨h1, _⟩ | ⟨q, rest, hv, hmin⟩
    · exact absurd h1 hfin
    · refine ⟨List.foldl min q rest, hmin, ?_, ?_⟩
      · rw [hv]
        exact foldl_min_mem rest q
      · intro r hr
        rw [hv] at hr
        rcases List.mem_cons.mp hr with h1 | h1
        · exact h1 ▸ (foldl_min_le rest q).1
        · exact (foldl_min_le rest q).2 r h1

/-- Closed witness for `nan_excluded_from_minmax`: the sequence
`[1, NaN, 3]` with all three hypotheses discharged concretely. -/
theorem nan_excluded_from_minmax_witness :
    (∃ q, (MinMaxTracker.run MinMaxTracker.init [Fl.fin 1, Fl.nan, Fl.fin 3]).mMax = Fl.fin q ∧
      q ∈ finVals [Fl.fin 1, Fl.nan, Fl.fin 3] ∧
      ∀ r ∈ finVals [Fl.fin 1, Fl.nan, Fl.fin 3], r ≤ q) ∧
    (∃ q, (MinMaxTracker.run MinMaxTracker.init [Fl.fin 1, Fl.nan, Fl.fin 3]).mMin = Fl.fin q ∧
      q ∈ finVals [Fl.fin 1, Fl.nan, Fl.fin 3] ∧
      ∀ r ∈ finVals [Fl.fin 1, Fl.nan, Fl.fin 3], q ≤ r) ∧
    (MinMaxTracker.run MinMaxTracker.init [Fl.fin 1, Fl.nan, Fl.fin 3]).mN = 3 :=
  nan_excluded_from_minmax [Fl.fin 1, Fl.nan, Fl.fin 3]
    (by decide) (by decide) (by decide)

/-- C7: in the reference engine the first sample after construction or reset
becomes both min and max unconditionally (even NaN); a later sample changes
max only when `value > max` holds (IEEE, so never for NaN) and min only when
`value < min` holds; hence a NaN added after the first sample leaves min and
max unchanged — unlike the online tracker, whose infinity-sentinel seeding
leaves the sentinels in place when the first sample is NaN (final conjunct). -/
theorem ref_first_sample_seeds_minmax (s : RefMinMax) (v : Fl) :
    (s.mN = 0 → (s.add v).mMin = v ∧ (s.add v).mMax = v) ∧
    (1 ≤ s.mN → (s.add Fl.nan).mMin = s.mMin ∧ (s.add Fl.nan).mMax = s.mMax) ∧
    (1 ≤ s.mN → (s.add v).mMax ≠ s.mMax → Fl.lt s.mMax v = true) ∧
    (1 ≤ s.mN → (s.add v).mMin ≠ s.mMin → Fl.lt v s.mMin = true) ∧
    ((RefMinMax.init.add Fl.nan).mMin = Fl.nan ∧
     (RefMinMax.init.add Fl.nan).mMax = Fl.nan ∧
     (MinMaxTracker.init.add Fl.nan).mMin = Fl.pinf ∧
     (MinMaxTracker.init.add Fl.nan).mMax = Fl.ninf) := by
  refine ⟨?_, ?_, ?_, ?_, by decide⟩
  · intro h0
    simp [RefMinMax.add, h0]
  · intro h1
    have h0 : ¬ s.mN = 0 := by omega
    constructor <;> simp [RefMinMax.add, h0, lt_nan, nan_lt]
  · intro h1 hne
    have h0 : ¬ s.mN = 0 := by omega
    by_cases hc : Fl.lt s.mMax v
    · exact hc
    · exfalso
      apply hne
      by_cases hc2 : Fl.lt v s.mMin <;> simp [RefMinMax.add, h0, hc, hc2]
  · intro h1 hne
    have h0 : ¬ s.mN = 0 := by omega
    by_cases hc2 : Fl.lt v s.mMin
    · exact hc2
    · exfalso
      apply hne
      by_cases hc : Fl.lt s.mMax v <;> simp [RefMinMax.add, h0, hc, hc2]

/-- Closed witness for `ref_first_sample_seeds_minmax`: seeding with a NaN
first sample, then the no-change clauses at a state with one sample. -/
theorem ref_first_sample_seeds_minmax_witness :
    (RefMinMax.init.add Fl.nan).mMin = Fl.nan ∧
    ((RefMinMax.init.add (Fl.fin 7)).add Fl.nan).mMin
        = (RefMinMax.init.add (Fl.fin 7)).mMin ∧
    ((RefMinMax.init.add (Fl.fin 7)).add Fl.nan).mMax
        = (RefMinMax.init.add (Fl.fin 7)).mMax :=
  ⟨((ref_first_sample_seeds_minmax RefMinMax.init Fl.nan).1 (by decide)).1,
   ((ref_first_sample_seeds_minmax (RefMinMax.init.add (Fl.fin 7)) Fl.nan).2.1 (by decide)).1,
   ((ref_first_sample_seeds_minmax (RefMinMax.init.add (Fl.fin 7)) Fl.nan).2.1 (by decide)).2⟩

theorem add_mAlpha (s : Statistics) (v : ℚ) : (s.add v).mAlpha = s.mAlpha := rfl

theorem add_mN (s : Statistics) (v : ℚ) : (s.add v).mN = s.mN + 1 := rfl

theorem add_mWeight (s : Statistics) (v : ℚ) :
    (s.add v).mWeight = 1 + s.mAlpha * s.mWeight := rfl

theorem add_mWeight2 (s : Statistics) (v : ℚ) :
    (s.add v).mWeight2 = 1 + s.mAlpha * s.mAlpha * s.mWeight2 := rfl

theorem add_mMean (s : Statistics) (v : ℚ) :
    (s.add v).mMean = s.mMean + (v - s.mMean) / (1 + s.mAlpha * s.mWeight) := rfl

theorem add_mM2 (s : Statistics) (v : ℚ) :
    (s.add v).mM2 = s.mAlpha * s.mM2
      + (v - s.mMean) * (v - (s.mMean + (v - s.mMean) / (1 + s.mAlpha * s.mWeight))) := rfl

/-- Invariant carried by a constant-alpha run after the first sample: the
alpha is `a`, the weight is at least 1, and the weights satisfy the closed
polynomial relation `(weight² − weight2)(1 + a) = 2·weight·(weight − 1)`. -/
def constAlphaInv (a : ℚ) (s : Statistics) : Prop :=
  s.mAlpha = a ∧ 1 ≤ s.mWeight ∧
    (s.mWeight ^ 2 - s.mWeight2) * (1 + a) = 2 * s.mWeight * (s.mWeight - 1)

theorem constAlphaInv_add (a : ℚ) (ha : 0 ≤ a) (s : Statistics)
    (h : constAlphaInv a s) (v : ℚ) : constAlphaInv a (s.add v) := by
  obtain ⟨hA, hW, hId⟩ := h
  refine ⟨hA, ?_, ?_⟩
  · rw [add_mWeight, hA]
    have : 0 ≤ a * s.mWeight := mul_nonneg ha (le_trans zero_le_one hW)
    linarith
  · rw [add_mWeight, add_mWeight2, hA]
    linear_combination (a ^ 2) * hId

theorem constAlphaInv_addAll (a : ℚ) (ha : 0 ≤ a) :
    ∀ (vs : List ℚ) (s : Statistics), constAlphaInv a s →
      constAlphaInv a (s.addAll vs) := by
  intro vs
  induction vs with
  | nil => intro s h; exact h
  | cons v t ih =>
    intro s h
    exact ih (s.add v) (constAlphaInv_add a ha s h v)

theorem constAlphaInv_first (a : ℚ) (v : ℚ) :
    constAlphaInv a ((Statistics.init a).add v) := by
  refine ⟨rfl, ?_, ?_⟩ <;> simp [add_mWeight, add_mWeight2, Statistics.init]

/-- C2 counterexample: with constant alpha 1/2 and two samples, the
effective-degrees-of-freedom term `weight − weight2/weight` (= 2/3) differs
from `weight − 1` (= 1/2), refuting the claim that a constant alpha always
collapses the correction to `weight − 1`. -/
theorem sampleWeight_ne_weight_sub_one :
    ¬ ((Statistics.addAll (Statistics.init (1/2)) [0, 0]).getSampleWeight
        = (Statistics.addAll (Statistics.init (1/2)) [0, 0]).getWeight - 1) := by
  simp only [Statistics.addAll, List.foldl_cons, List.foldl_nil]
  simp [Statistics.add, Statistics.init, Statistics.getSampleWeight, Statistics.getWeight]
  norm_num

/-- C2 (amended): the bias correction used by `getVariance()` is the
effective-degrees-of-freedom term `weight − weight2/weight`; for a run of at
least two samples under one constant alpha `a ≥ 0` this term equals
`(weight − 1) · 2 / (1 + a)`, and it equals `weight − 1` exactly when the
constant alpha is 1. -/
theorem sampleWeight_const_alpha (a : ℚ) (ha : 0 ≤ a) (vs : List ℚ)
    (hlen : 2 ≤ vs.length) :
    (∀ t : Statistics, ¬ t.mN < 2 →
        t.getVariance = t.mM2 / (t.mWeight - t.mWeight2 / t.mWeight)) ∧
    (Statistics.addAll (Statistics.init a) vs).getSampleWeight
        = ((Statistics.addAll (Statistics.init a) vs).getWeight - 1) * 2 / (1 + a) ∧
    (a = 1 → (Statistics.addAll (Statistics.init a) vs).getSampleWeight
        = (Statistics.addAll (Statistics.init a) vs).getWeight - 1) := by
  obtain ⟨v, t, rfl⟩ : ∃ v t, vs = v :: t := by
    cases vs with
    | nil => simp at hlen
    | cons v t => exact ⟨v, t, rfl⟩
  have hinv : constAlphaInv a ((Statistics.addAll (Statistics.init a) (v :: t))) := by
    have : Statistics.addAll (Statistics.init a) (v :: t)
        = Statistics.addAll ((Statistics.init a).add v) t := rfl
    rw [this]
    exact constAlphaInv_addAll a ha t _ (constAlphaInv_first a v)
  obtain ⟨hA, hW, hId⟩ := hinv
  have hWpos : 0 < (Statistics.addAll (Statistics.init a) (v :: t)).mWeight :=
    lt_of_lt_of_le one_pos hW
  have hWne : (Statistics.addAll (Statistics.init a) (v :: t)).mWeight ≠ 0 := ne_of_gt hWpos
  have hane : (1 : ℚ) + a ≠ 0 := by positivity
  have hmain : (Statistics.addAll (Statistics.init a) (v :: t)).getSampleWeight
      = ((Statistics.addAll (Statistics.init a) (v :: t)).getWeight - 1) * 2 / (1 + a) := by
    rw [Statistics.getSampleWeight, Statistics.getWeight]
    field_simp
    linear_combination hId
  refine ⟨fun u hu => by rw [Statistics.getVariance, if_neg hu]; rfl, hmain, fun h1 => ?_⟩
  rw [hmain, h1]
  norm_num

/-- Closed witness for `sampleWeight_const_alpha`: instantiated at constant
alpha 1 with the two-sample run `[0, 0]`, hypotheses discharged concretely. -/
theorem sampleWeight_const_alpha_witness :
    (Statistics.addAll (Statistics.init 1) [0, 0]).getSampleWeight
        = ((Statistics.addAll (Statistics.init 1) [0, 0]).getWeight - 1) * 2 / (1 + 1) ∧
    (Statistics.addAll (Statistics.init 1) [0, 0]).getSampleWeight
        = (Statistics.addAll (Statistics.init 1) [0, 0]).getWeight - 1 :=
  ⟨(sampleWeight_const_alpha 1 (by decide) [0, 0] (by decide)).2.1,
   (sampleWeight_const_alpha 1 (by decide) [0, 0] (by decide)).2.2 rfl⟩

theorem addWith_mN (s : Statistics) (p : ℚ × ℚ) : (s.addWith p).mN = s.mN + 1 := rfl

theorem addWith_mWeight (s : Statistics) (p : ℚ × ℚ) :
    (s.addWith p).mWeight = 1 + p.1 * s.mWeight := rfl

theorem addWith_mWeight2 (s : Statistics) (p : ℚ × ℚ) :
    (s.addWith p).mWeight2 = 1 + p.1 * p.1 * s.mWeight2 := rfl

theorem addWith_mMean (s : Statistics) (p : ℚ × ℚ) :
    (s.addWith p).mMean = s.mMean + (p.2 - s.mMean) / (1 + p.1 * s.mWeight) := rfl

theorem addWith_mM2 (s : Statistics) (p : ℚ × ℚ) :
    (s.addWith p).mM2 = p.1 * s.mM2
      + (p.2 - s.mMean) * (p.2 - (s.mMean + (p.2 - s.mMean) / (1 + p.1 * s.mWeight))) := rfl

theorem runPairs_mN : ∀ (l : List (ℚ × ℚ)) (s : Statistics),
    (Statistics.runPairs s l).mN = s.mN + l.length := by
  intro l
  induction l with
  | nil => intro s; rfl
  | cons p t ih =>
    intro s
    have : Statistics.runPairs s (p :: t) = Statistics.runPairs (s.addWith p) t := rfl
    rw [this, ih (s.addWith p), addWith_mN]
    simp
    omega

/-- Invariant of a strictly-positive-alpha run: weights vanish before the
first sample, `weight ≥ 1` and `weight2 ≤ weight²` from the first sample on,
and `weight2 < weight²` strictly from the second sample on. -/
def posAlphaInv (s : Statistics) : Prop :=
  (s.mN = 0 → s.mWeight = 0 ∧ s.mWeight2 = 0) ∧
  (1 ≤ s.mN → 1 ≤ s.mWeight ∧ s.mWeight2 ≤ s.mWeight ^ 2) ∧
  (2 ≤ s.mN → s.mWeight2 < s.mWeight ^ 2)

theorem posAlphaInv_addWith (s : Statistics) (p : ℚ × ℚ) (ha : 0 < p.1)
    (h : posAlphaInv s) : posAlphaInv (s.addWith p) := by
  obtain ⟨h0, h1, h2⟩ := h
  rw [posAlphaInv, addWith_mN, addWith_mWeight, addWith_mWeight2]
  rcases Nat.eq_zero_or_pos s.mN with hn | hn
  · obtain ⟨hw, hw2⟩ := h0 hn
    rw [hn, hw, hw2]
    norm_num
  · obtain ⟨hw, hw2⟩ := h1 hn
    have hwpos : 0 < s.mWeight := lt_of_lt_of_le one_pos hw
    have haw : 0 < p.1 * s.mWeight := mul_pos ha hwpos
    have hsq : 0 ≤ p.1 * p.1 * (s.mWeight ^ 2 - s.mWeight2) :=
      mul_nonneg (mul_nonneg (le_of_lt ha) (le_of_lt ha)) (sub_nonneg.mpr hw2)
    have hstrict : 1 + p.1 * p.1 * s.mWeight2 < (1 + p.1 * s.mWeight) ^ 2 := by
      nlinarith
    exact ⟨fun hc => by omega, fun _ => ⟨by linarith, le_of_lt hstrict⟩, fun _ => hstrict⟩

theorem posAlphaInv_runPairs : ∀ (l : List (ℚ × ℚ)) (s : Statistics),
    (∀ p ∈ l, 0 < p.1) → posAlphaInv s → posAlphaInv (Statistics.runPairs s l) := by
  intro l
  induction l with
  | nil => intro s _ h; exact h
  | cons p t ih =>
    intro s hpos h
    exact ih (s.addWith p) (fun q hq => hpos q (List.mem_cons_of_mem p hq))
      (posAlphaInv_addWith s p (hpos p (List.mem_cons_self p t)) h)

theorem posAlphaInv_init (a : ℚ) : posAlphaInv (Statistics.init a) :=
  ⟨fun _ => ⟨rfl, rfl⟩, fun h => by simp [Statistics.init] at h, fun h => by
    simp [Statistics.init] at h⟩

/-- C10: along any run whose alphas are all strictly positive, `weight > 0`
from the first sample on (so `getPopVariance()`'s division is well defined),
and from the second sample on `weight² > weight2` strictly, so the divisor
`weight − weight2/weight` used by `getVariance()` is strictly positive — in
particular never a division by zero. -/
theorem variance_divisor_positive (a0 : ℚ) (l : List (ℚ × ℚ))
    (hpos : ∀ p ∈ l, 0 < p.1) :
    (1 ≤ l.length → 0 < (Statistics.runPairs (Statistics.init a0) l).mWeight) ∧
    (2 ≤ l.length →
      (Statistics.runPairs (Statistics.init a0) l).mWeight2
          < (Statistics.runPairs (Statistics.init a0) l).mWeight ^ 2 ∧
      0 < (Statistics.runPairs (Statistics.init a0) l).getSampleWeight) := by
  have hinv := posAlphaInv_runPairs l (Statistics.init a0) hpos (posAlphaInv_init a0)
  obtain ⟨_, h1, h2⟩ := hinv
  have hn : (Statistics.runPairs (Statistics.init a0) l).mN = l.length := by
    rw [runPairs_mN]
    simp [Statistics.init]
  constructor
  · intro hlen
    exact lt_of_lt_of_le one_pos (h1 (by omega)).1
  · intro hlen
    have hstrict := h2 (by omega)
    have hwpos : 0 < (Statistics.runPairs (Statistics.init a0) l).mWeight :=
      lt_of_lt_of_le one_pos (h1 (by omega)).1
    refine ⟨hstrict, ?_⟩
    rw [Statistics.getSampleWeight]
    rw [sub_pos, div_lt_iff₀ hwpos, ← sq]
    exact hstrict

/-- Closed witness for `variance_divisor_positive`: the two-sample run
`[(1, 0), (1, 0)]`, all hypotheses discharged concretely. -/
theorem variance_divisor_positive_witness :
    0 < (Statistics.runPairs (Statistics.init 1) [(1, 0), (1, 0)]).mWeight ∧
    0 < (Statistics.runPairs (Statistics.init 1) [(1, 0), (1, 0)]).getSampleWeight :=
  ⟨(variance_divisor_positive 1 [(1, 0), (1, 0)] (by decide)).1 (by decide),
   ((variance_divisor_positive 1 [(1, 0), (1, 0)] (by decide)).2 (by decide)).2⟩

theorem contribution_nonneg (s : Statistics) (hW : 0 ≤ s.mWeight) (a v : ℚ)
    (ha : 0 ≤ a) :
    0 ≤ (v - s.mMean) * (v - (s.mMean + (v - s.mMean) / (1 + a * s.mWeight))) := by
  have hW1 : (1 : ℚ) ≤ 1 + a * s.mWeight := by nlinarith
  have hWpos : (0 : ℚ) < 1 + a * s.mWeight := lt_of_lt_of_le one_pos hW1
  have heq : (v - s.mMean) * (v - (s.mMean + (v - s.mMean) / (1 + a * s.mWeight)))
      = (v - s.mMean) ^ 2 * (1 - 1 / (1 + a * s.mWeight)) := by
    field_simp
    ring
  rw [heq]
  exact mul_nonneg (sq_nonneg _) (sub_nonneg.mpr ((div_le_one hWpos).mpr hW1))

/-- Invariant of a non-negative-alpha run: `weight ≥ 0` and `m2 ≥ 0`. -/
def nonnegInv (s : Statistics) : Prop := 0 ≤ s.mWeight ∧ 0 ≤ s.mM2

theorem nonnegInv_addWith (s : Statistics) (p : ℚ × ℚ) (ha : 0 ≤ p.1)
    (h : nonnegInv s) : nonnegInv (s.addWith p) := by
  obtain ⟨hW, hM⟩ := h
  constructor
  · rw [addWith_mWeight]
    nlinarith
  · rw [addWith_mM2]
    exact add_nonneg (mul_nonneg ha hM) (contribution_nonneg s hW p.1 p.2 ha)

theorem nonnegInv_runPairs : ∀ (l : List (ℚ × ℚ)) (s : Statistics),
    (∀ p ∈ l, 0 ≤ p.1) → nonnegInv s → nonnegInv (Statistics.runPairs s l) := by
  intro l
  induction l with
  | nil => intro s _ h; exact h
  | cons p t ih =>
    intro s hpos h
    exact ih (s.addWith p) (fun q hq => hpos q (List.mem_cons_of_mem p hq))
      (nonnegInv_addWith s p (hpos p (List.mem_cons_self p t)) h)

/-- C3: along any run whose alphas are all non-negative, the incremental
contribution `delta * (value − mean)` computed with the post-update mean is
non-negative at every `add`, `m2 ≥ 0` is an invariant preserved by every
`add`, and `getPopVariance()` never returns a negative value. -/
theorem m2_nonneg_invariant (a0 : ℚ) (l : List (ℚ × ℚ))
    (hpos : ∀ p ∈ l, 0 ≤ p.1) :
    0 ≤ (Statistics.runPairs (Statistics.init a0) l).mM2 ∧
    0 ≤ (Statistics.runPairs (Statistics.init a0) l).getPopVariance ∧
    ∀ a v : ℚ, 0 ≤ a →
      0 ≤ (v - (Statistics.runPairs (Statistics.init a0) l).mMean)
          * (v - ((Statistics.runPairs (Statistics.init a0) l).addWith (a, v)).mMean) ∧
      0 ≤ ((Statistics.runPairs (Statistics.init a0) l).addWith (a, v)).mM2 := by
  have hinv : nonnegInv (Statistics.runPairs (Statistics.init a0) l) :=
    nonnegInv_runPairs l (Statistics.init a0) hpos ⟨le_refl 0, le_refl 0⟩
  obtain ⟨hW, hM⟩ := hinv
  refine ⟨hM, ?_, ?_⟩
  · rw [Statistics.getPopVariance]
    by_cases h : (Statistics.runPairs (Statistics.init a0) l).mN < 1
    · rw [if_pos h]
    · rw [if_neg h]
      exact div_nonneg hM hW
  · intro a v ha
    constructor
    · rw [addWith_mMean]
      exact contribution_nonneg _ hW a v ha
    · exact (nonnegInv_addWith _ (a, v) ha ⟨hW, hM⟩).2

/-- Closed witness for `m2_nonneg_invariant`: the run `[(1, 3), (1, 5)]` with
both non-negativity hypotheses discharged concretely. -/
theorem m2_nonneg_invariant_witness :
    0 ≤ (Statistics.runPairs (Statistics.init 1) [(1, 3), (1, 5)]).mM2 ∧
    0 ≤ (Statistics.runPairs (Statistics.init 1) [(1, 3), (1, 5)]).getPopVariance ∧
    0 ≤ ((Statistics.runPairs (Statistics.init 1) [(1, 3), (1, 5)]).addWith (1, 9)).mM2 :=
  ⟨(m2_nonneg_invariant 1 [(1, 3), (1, 5)] (by decide)).1,
   (m2_nonneg_invariant 1 [(1, 3), (1, 5)] (by decide)).2.1,
   ((m2_nonneg_invariant 1 [(1, 3), (1, 5)] (by decide)).2.2 1 9 (by decide)).2⟩

theorem sumList_append_single (l : List ℚ) (v : ℚ) :
    sumList (l ++ [v]) = sumList l + v := by
  simp [sumList]

theorem sumSq_append_single (l : List ℚ) (v : ℚ) :
    sumSq (l ++ [v]) = sumSq l + v * v := by
  simp [sumSq]

/-- Closed form of the online engine after a constant-alpha-1 run: the count,
weight and weight2 all equal the sample count, the mean satisfies
`n·mean = Σ x`, and `m2 = Σ x² − (Σ x)·mean` (the Welford invariant, stated
multiplicatively to avoid case splits on `n = 0`). -/
theorem addAll_one_closed_form (vs : List ℚ) :
    (Statistics.addAll (Statistics.init 1) vs).mAlpha = 1 ∧
    (Statistics.addAll (Statistics.init 1) vs).mN = vs.length ∧
    (Statistics.addAll (Statistics.init 1) vs).mWeight = (vs.length : ℚ) ∧
    (Statistics.addAll (Statistics.init 1) vs).mWeight2 = (vs.length : ℚ) ∧
    (vs.length : ℚ) * (Statistics.addAll (Statistics.init 1) vs).mMean = sumList vs ∧
    (Statistics.addAll (Statistics.init 1) vs).mM2
        = sumSq vs - sumList vs * (Statistics.addAll (Statistics.init 1) vs).mMean ∧
    (vs = [] → (Statistics.addAll (Statistics.init 1) vs).mMean = 0) := by
  induction vs using List.reverseRecOn with
  | nil =>
    refine ⟨rfl, rfl, by simp [Statistics.addAll, Statistics.init],
      by simp [Statistics.addAll, Statistics.init], by simp [Statistics.addAll, sumList],
      by simp [Statistics.addAll, Statistics.init, sumList, sumSq], fun _ => rfl⟩
  | append_singleton l v ih =>
    obtain ⟨hA, hN, hW, hW2, hMean, hM2, _⟩ := ih
    have hstep : Statistics.addAll (Statistics.init 1) (l ++ [v])
        = (Statistics.addAll (Statistics.init 1) l).add v := by
      rw [Statistics.addAll, List.foldl_append, List.foldl_cons, List.foldl_nil]
      rfl
    have hden : (1 : ℚ) + (l.length : ℚ) ≠ 0 := by positivity
    rw [hstep]
    refine ⟨by rw [add_mAlpha, hA], by rw [add_mN, hN]; simp, ?_, ?_, ?_, ?_, ?_⟩
    · rw [add_mWeight, hA, hW]
      push_cast [List.length_append, List.length_singleton]
      ring
    · rw [add_mWeight2, hA, hW2]
      push_cast [List.length_append, List.length_singleton]
      ring
    · rw [add_mMean, hA, hW, sumList_append_single, ← hMean]
      push_cast [List.length_append, List.length_singleton]
      field_simp
      ring
    · rw [add_mM2, add_mMean, hA, hW, hM2, sumSq_append_single, sumList_append_single,
        ← hMean]
      field_simp
      ring
    · intro h
      simp at h

theorem refAddAll_hist : ∀ (vs : List ℚ) (s : ReferenceStatistics),
    (ReferenceStatistics.addAll s vs).hist
      = (vs.map fun v => (v, s.mAlpha)).reverse ++ s.hist := by
  intro vs
  induction vs with
  | nil => intro s; rfl
  | cons v t ih =>
    intro s
    have hstep : ReferenceStatistics.addAll s (v :: t)
        = ReferenceStatistics.addAll (s.add v) t := rfl
    rw [hstep, ih (s.add v)]
    simp [ReferenceStatistics.add]

theorem weightAux_one : ∀ (l : List (ℚ × ℚ)), (∀ p ∈ l, p.2 = 1) → ∀ ai : ℚ,
    ReferenceStatistics.weightAux ai l = ai * l.length := by
  intro l
  induction l with
  | nil => intro _ ai; simp [ReferenceStatistics.weightAux]
  | cons p t ih =>
    intro h ai
    have hp : p.2 = 1 := h p (List.mem_cons_self p t)
    have ht : ∀ q ∈ t, q.2 = 1 := fun q hq => h q (List.mem_cons_of_mem p hq)
    rw [ReferenceStatistics.weightAux, ih ht (ai * p.2), hp]
    push_cast [List.length_cons]
    ring

theorem weight2Aux_one : ∀ (l : List (ℚ × ℚ)), (∀ p ∈ l, p.2 = 1) → ∀ ai : ℚ,
    ReferenceStatistics.weight2Aux ai l = ai * l.length := by
  intro l
  induction l with
  | nil => intro _ ai; simp [ReferenceStatistics.weight2Aux]
  | cons p t ih =>
    intro h ai
    have hp : p.2 = 1 := h p (List.mem_cons_self p t)
    have ht : ∀ q ∈ t, q.2 = 1 := fun q hq => h q (List.mem_cons_of_mem p hq)
    rw [ReferenceStatistics.weight2Aux, ih ht (ai * (p.2 * p.2)), hp]
    push_cast [List.length_cons]
    ring

theorem wsumAux_one : ∀ (l : List (ℚ × ℚ)), (∀ p ∈ l, p.2 = 1) → ∀ ai : ℚ,
    ReferenceStatistics.wsumAux ai l = ai * sumList (l.map Prod.fst) := by
  intro l
  induction l with
  | nil => intro _ ai; simp [ReferenceStatistics.wsumAux, sumList]
  | cons p t ih =>
    intro h ai
    have hp : p.2 = 1 := h p (List.mem_cons_self p t)
    have ht : ∀ q ∈ t, q.2 = 1 := fun q hq => h q (List.mem_cons_of_mem p hq)
    rw [ReferenceStatistics.wsumAux, ih ht (ai * p.2), hp]
    simp [sumList]
    ring

theorem sqDiffAux_one : ∀ (l : List (ℚ × ℚ)), (∀ p ∈ l, p.2 = 1) → ∀ (c ai : ℚ),
    ReferenceStatistics.sqDiffAux c ai l
      = ai * (sumSq (l.map Prod.fst) - 2 * c * sumList (l.map Prod.fst)
          + c ^ 2 * (l.map Prod.fst).length) := by
  intro l
  induction l with
  | nil => intro _ c ai; simp [ReferenceStatistics.sqDiffAux, sumList, sumSq]
  | cons p t ih =>
    intro h c ai
    have hp : p.2 = 1 := h p (List.mem_cons_self p t)
    have ht : ∀ q ∈ t, q.2 = 1 := fun q hq => h q (List.mem_cons_of_mem p hq)
    rw [ReferenceStatistics.sqDiffAux, ih ht c (ai * p.2), hp]
    simp [sumList, sumSq]
    ring

theorem sumList_reverse (l : List ℚ) : sumList l.reverse = sumList l := by
  rw [sumList, sumList, List.sum_reverse]

theorem sumSq_reverse (l : List ℚ) : sumSq l.reverse = sumSq l := by
  rw [sumSq, sumSq, List.map_reverse, List.sum_reverse]

/-- The reference engine's getters after an alpha-1 run, in closed form. -/
theorem refAddAll_one_getters (vs : List ℚ) :
    (ReferenceStatistics.addAll (ReferenceStatistics.init 1) vs).getWeight
        = (vs.length : ℚ) ∧
    (ReferenceStatistics.addAll (ReferenceStatistics.init 1) vs).getWeight2
        = (vs.length : ℚ) ∧
    (ReferenceStatistics.addAll (ReferenceStatistics.init 1) vs).getMean
        = sumList vs / (vs.length : ℚ) ∧
    (ReferenceStatistics.addAll (ReferenceStatistics.init 1) vs).getUnweightedVariance
        = sumSq vs
          - 2 * (ReferenceStatistics.addAll (ReferenceStatistics.init 1) vs).getMean
              * sumList vs
          + (ReferenceStatistics.addAll (ReferenceStatistics.init 1) vs).getMean ^ 2
              * (vs.length : ℚ) := by
  have hh : (ReferenceStatistics.addAll (ReferenceStatistics.init 1) vs).hist
      = (vs.map fun v => (v, (1 : ℚ))).reverse := by
    rw [refAddAll_hist vs (ReferenceStatistics.init 1)]
    simp [ReferenceStatistics.init]
  have hall : ∀ p ∈ (ReferenceStatistics.addAll (ReferenceStatistics.init 1) vs).hist,
      p.2 = 1 := by
    rw [hh]
    intro p hp
    simp only [List.mem_reverse, List.mem_map] at hp
    obtain ⟨x, _, rfl⟩ := hp
    rfl
  have hvals : (ReferenceStatistics.addAll (ReferenceStatistics.init 1) vs).hist.map
      Prod.fst = vs.reverse := by
    rw [hh, ← List.map_reverse, List.map_map]
    have : (Prod.fst ∘ fun v : ℚ => (v, (1 : ℚ))) = id := rfl
    rw [this, List.map_id]
  have hlen : (ReferenceStatistics.addAll (ReferenceStatistics.init 1) vs).hist.length
      = vs.length := by
    simp [hh]
  have hWeight : (ReferenceStatistics.addAll (ReferenceStatistics.init 1) vs).getWeight
      = (vs.length : ℚ) := by
    rw [ReferenceStatistics.getWeight, weightAux_one _ hall 1, hlen, one_mul]
  refine ⟨hWeight, ?_, ?_, ?_⟩
  · rw [ReferenceStatistics.getWeight2, weight2Aux_one _ hall 1, hlen, one_mul]
  · rw [ReferenceStatistics.getMean, wsumAux_one _ hall 1, hvals, sumList_reverse,
      one_mul, hWeight]
  · rw [ReferenceStatistics.getUnweightedVariance, sqDiffAux_one _ hall _ 1, hvals,
      sumList_reverse, sumSq_reverse, one_mul, List.length_reverse]

/-- C1: for every finite sample sequence added in the same order to both
engines with alpha equal to 1 throughout, the online engine's `getMean()` and
`getVariance()` coincide exactly with the reference engine's (exact rational
arithmetic; `ℚ` division is total with `x / 0 = 0`, under which the
sentinel/undefined cases at `n ≤ 1` also coincide: both sides evaluate to 0). -/
theorem alpha_one_matches_reference (vs : List ℚ) :
    (Statistics.addAll (Statistics.init 1) vs).getMean
        = (ReferenceStatistics.addAll (ReferenceStatistics.init 1) vs).getMean ∧
    (Statistics.addAll (Statistics.init 1) vs).getVariance
        = (ReferenceStatistics.addAll (ReferenceStatistics.init 1) vs).getVariance := by
  obtain ⟨hA, hN, hW, hW2, hMean, hM2, hnil⟩ := addAll_one_closed_form vs
  obtain ⟨rW, rW2, rMean, rU⟩ := refAddAll_one_getters vs
  rcases Nat.eq_zero_or_pos vs.length with h0 | hpos
  · obtain rfl : vs = [] := List.length_eq_zero.mp h0
    constructor
    · rw [Statistics.getMean, hnil rfl, rMean]
      simp [sumList]
    · rw [Statistics.getVariance, if_pos (by rw [hN]; omega),
        ReferenceStatistics.getVariance, rU, rMean]
      simp [sumList, sumSq]
  · have hn0 : (vs.length : ℚ) ≠ 0 := Nat.cast_ne_zero.mpr (by omega)
    have hmean : (Statistics.addAll (Statistics.init 1) vs).getMean
        = sumList vs / (vs.length : ℚ) := by
      rw [Statistics.getMean, eq_div_iff hn0, mul_comm]
      exact hMean
    have mean_part : (Statistics.addAll (Statistics.init 1) vs).getMean
        = (ReferenceStatistics.addAll (ReferenceStatistics.init 1) vs).getMean := by
      rw [hmean, rMean]
    have hc : (ReferenceStatistics.addAll (ReferenceStatistics.init 1) vs).getMean
        = (Statistics.addAll (Statistics.init 1) vs).mMean := mean_part.symm
    have hU : (ReferenceStatistics.addAll (ReferenceStatistics.init 1) vs).getUnweightedVariance
        = (Statistics.addAll (Statistics.init 1) vs).mM2 := by
      rw [rU, hc, hM2]
      linear_combination (Statistics.addAll (Statistics.init 1) vs).mMean * hMean
    have hdenom : (ReferenceStatistics.addAll (ReferenceStatistics.init 1) vs).getWeight
          - (ReferenceStatistics.addAll (ReferenceStatistics.init 1) vs).getWeight2
            / (ReferenceStatistics.addAll (ReferenceStatistics.init 1) vs).getWeight
        = (Statistics.addAll (Statistics.init 1) vs).getSampleWeight := by
      rw [rW, rW2, Statistics.getSampleWeight, hW, hW2]
    refine ⟨mean_part, ?_⟩
    rw [ReferenceStatistics.getVariance, hU, hdenom]
    rcases lt_or_ge vs.length 2 with h2 | h2
    · have hn1 : vs.length = 1 := by omega
      rw [Statistics.getVariance, if_pos (by rw [hN]; omega)]
      have : (Statistics.addAll (Statistics.init 1) vs).getSampleWeight = 0 := by
        rw [Statistics.getSampleWeight, hW, hW2, hn1]
        norm_num
      rw [this, div_zero]
    · rw [Statistics.getVariance, if_neg (by rw [hN]; omega)]

end AudioUtils
